import Mathlib

/-!
Verification of the streamsh session-recording system: a shallow embedding of
the ring buffer, session store, daemon dispatcher and wrapper command
detector, with theorems checking the specification's claims against the code.

Machine integers: Go `uint64` sequence counters and `int` sizes are modelled
as `Nat`/`Int`; no reachable state of these operations wraps (sequence
numbers would need 2^64 appends), and index arithmetic that Go performs on
possibly-negative `int`s is rearranged into `Nat` form, which coincides with
the Go computation on every state satisfying the structural invariant `WF`
(all states reachable through the API satisfy it).
-/

namespace Streamsh

/-! ### String helpers (Go `strings` package operations used by the code) -/

/-- Go `strings.ToLower`, restricted to the ASCII simple case mapping
(`Char.toLower`); the code under verification only relies on lowercasing
for case-insensitive comparison. -/
def toLowerStr (s : String) : String := String.mk (s.toList.map Char.toLower)

/-- Go `strings.HasPrefix` on character lists. -/
def isPre : List Char → List Char → Bool
  | [], _ => true
  | _ :: _, [] => false
  | a :: as, b :: bs => a == b && isPre as bs

/-- Substring occurrence on character lists: `hasSubL needle hay` is true iff
`needle` occurs contiguously inside `hay`. -/
def hasSubL (needle : List Char) : List Char → Bool
  | [] => isPre needle []
  | c :: t => isPre needle (c :: t) || hasSubL needle t

/-- Go `strings.Contains s sub`. -/
def hasSub (s sub : String) : Bool := hasSubL sub.toList s.toList

/-! ### RingBuffer (ringbuffer.go) -/

/-- Go `SearchResult` from ringbuffer.go: a matched line and its global
sequence number. -/
structure SearchResult where
  seq : Nat
  line : String
deriving DecidableEq, Repr

/-- Go `RingBuffer` from ringbuffer.go: a fixed-capacity circular buffer of
lines.  The `sync.RWMutex` is not modelled; methods are pure state
transformers / observers. -/
structure RingBuffer where
  lines : List String
  cap : Nat
  head : Nat
  count : Nat
  totalSeq : Nat
deriving DecidableEq, Repr

/-- Structural invariant satisfied by every buffer reachable through the
API (checked below for the constructor and preserved by `Append` and
`Clear`). -/
def WF (rb : RingBuffer) : Prop :=
  rb.lines.length = rb.cap ∧ 0 < rb.cap ∧ rb.head < rb.cap ∧
    rb.count ≤ rb.cap ∧ rb.count ≤ rb.totalSeq

instance (rb : RingBuffer) : Decidable (WF rb) := by
  unfold WF; infer_instance

/-- Go `NewRingBuffer` from ringbuffer.go: note the code's non-positive
fallback is `100000`. -/
def NewRingBuffer (capacity : Int) : RingBuffer :=
  let c : Nat := if capacity ≤ 0 then 100000 else capacity.toNat
  { lines := List.replicate c "", cap := c, head := 0, count := 0, totalSeq := 0 }

/-- Slot read `rb.lines[i]`; all call sites keep `i < rb.cap = rb.lines.length`. -/
def RingBuffer.slot (rb : RingBuffer) (i : Nat) : String := rb.lines.getD i ""

/-- Go `RingBuffer.Append`: writes at `head`, advances it mod `cap`, grows
`count` up to `cap`, returns the pre-increment sequence number. -/
def RingBuffer.Append (rb : RingBuffer) (line : String) : RingBuffer × Nat :=
  ({ rb with
      lines := rb.lines.set rb.head line,
      head := (rb.head + 1) % rb.cap,
      count := if rb.count < rb.cap then rb.count + 1 else rb.count,
      totalSeq := rb.totalSeq + 1 }, rb.totalSeq)

/-- Go `RingBuffer.Len`. -/
def RingBuffer.Len (rb : RingBuffer) : Nat := rb.count

/-- Go `RingBuffer.TotalSeq`. -/
def RingBuffer.TotalSeqFn (rb : RingBuffer) : Nat := rb.totalSeq

/-- Go `RingBuffer.LastN`: the most recent `n` lines (fewer if the buffer has
less), oldest-to-newest.  Go computes `start := (head - n + cap) % cap` on
`int`s; with `n ≤ count ≤ cap` this equals the `Nat` form below. -/
def RingBuffer.LastN (rb : RingBuffer) (n : Int) : List String :=
  let n := if (rb.count : Int) < n then (rb.count : Int) else n
  if n ≤ 0 then []
  else
    let n := n.toNat
    let start := (rb.head + rb.cap - n) % rb.cap
    (List.range n).map (fun i => rb.slot ((start + i) % rb.cap))

/-- Go `RingBuffer.ReadRange`: lines starting at global sequence `fromSeq`, up
to `count` lines; returns (lines, next cursor, has-more).  Go's
`startIdx := (head - count + offset + cap) % cap` is rearranged into the
equivalent `Nat` form (valid since `count ≤ cap`). -/
def RingBuffer.ReadRange (rb : RingBuffer) (fromSeq : Nat) (count : Int) :
    List String × Nat × Bool :=
  if rb.count = 0 ∨ count ≤ 0 then ([], fromSeq, false)
  else
    let oldestSeq := rb.totalSeq - rb.count
    let f := if fromSeq < oldestSeq then oldestSeq else fromSeq
    if rb.totalSeq ≤ f then ([], f, false)
    else
      let available := rb.totalSeq - f
      let c := if available < count.toNat then available else count.toNat
      let offset := f - oldestSeq
      let startIdx := (rb.head + rb.cap + offset - rb.count) % rb.cap
      let result := (List.range c).map (fun i => rb.slot ((startIdx + i) % rb.cap))
      (result, f + c, decide (f + c < rb.totalSeq))

/-- Go `RingBuffer.Cap`. -/
def RingBuffer.CapFn (rb : RingBuffer) : Nat := rb.cap

/-- Go `RingBuffer.AllLines`: all stored lines, oldest to newest. -/
def RingBuffer.AllLines (rb : RingBuffer) : List String :=
  if rb.count = 0 then []
  else
    let start := (rb.head + rb.cap - rb.count) % rb.cap
    (List.range rb.count).map (fun i => rb.slot ((start + i) % rb.cap))

/-- Go `RingBuffer.Clear`: resets to empty and blanks every slot. -/
def RingBuffer.Clear (rb : RingBuffer) : RingBuffer :=
  { rb with
      head := 0, count := 0, totalSeq := 0,
      lines := rb.lines.map (fun _ => "") }

/-- The loop body of `RingBuffer.Search`
(`for i := 0; i < count && len(results) < maxResults; i++`), with `n` the
remaining iterations, `b` the remaining result budget and `i` the current
logical index. -/
def RingBuffer.searchGo (rb : RingBuffer) (lp : String) (oldestSeq startIdx : Nat) :
    Nat → Nat → Nat → List SearchResult
  | 0, _, _ => []
  | _ + 1, 0, _ => []
  | n + 1, b + 1, i =>
    let line := rb.slot ((startIdx + i) % rb.cap)
    if hasSub (toLowerStr line) lp then
      ⟨oldestSeq + i, line⟩ :: rb.searchGo lp oldestSeq startIdx n b (i + 1)
    else
      rb.searchGo lp oldestSeq startIdx n (b + 1) (i + 1)

/-- Go `RingBuffer.Search`: case-insensitive substring scan, oldest to newest,
capped at `maxResults`. -/
def RingBuffer.Search (rb : RingBuffer) (pattern : String) (maxResults : Int) :
    List SearchResult :=
  if rb.count = 0 ∨ maxResults ≤ 0 then []
  else
    rb.searchGo (toLowerStr pattern) (rb.totalSeq - rb.count)
      ((rb.head + rb.cap - rb.count) % rb.cap) rb.count maxResults.toNat 0

/-- Appending a whole list of lines (`foldl` of `Append`, discarding the
returned sequence numbers), as done by the daemon ingest loops. -/
def appendAll (rb : RingBuffer) (ls : List String) : RingBuffer :=
  ls.foldl (fun b l => (RingBuffer.Append b l).1) rb

/-- A buffer built from scratch by appending the history `ls`. -/
def buildRB (capacity : Int) (ls : List String) : RingBuffer :=
  appendAll (NewRingBuffer capacity) ls

/-- Sequence-numbered view of the retained lines: the `i`-th retained line
paired with sequence number `oldest + i`. -/
def seqLines (rb : RingBuffer) : List SearchResult :=
  (List.range rb.AllLines.length).map
    (fun i => ⟨rb.totalSeq - rb.count + i, rb.AllLines.getD i ""⟩)

/-! ### List and arithmetic helpers -/

theorem mapRange_drop (g : Nat → String) (n k : Nat) :
    ((List.range n).map g).drop k = (List.range (n - k)).map (fun i => g (k + i)) := by
  apply List.ext_getElem?
  intro j
  rw [List.getElem?_drop, List.getElem?_map, List.getElem?_map]
  by_cases hj : j < n - k
  · rw [List.getElem?_range hj, List.getElem?_range (show k + j < n by omega)]; rfl
  · have h1 : (List.range (n - k))[j]? = none := by
      rw [List.getElem?_eq_none_iff, List.length_range]; omega
    have h2 : (List.range n)[k + j]? = none := by
      rw [List.getElem?_eq_none_iff, List.length_range]; omega
    rw [h1, h2]; rfl

theorem mapRange_take (g : Nat → String) (n c : Nat) (h : c ≤ n) :
    ((List.range n).map g).take c = (List.range c).map g := by
  apply List.ext_getElem?
  intro j
  rw [List.getElem?_take, List.getElem?_map, List.getElem?_map]
  by_cases hj : j < c
  · rw [if_pos hj, List.getElem?_range hj, List.getElem?_range (show j < n by omega)]
  · have h1 : (List.range c)[j]? = none := by
      rw [List.getElem?_eq_none_iff, List.length_range]; omega
    rw [if_neg hj, h1]; rfl

theorem getD_set_self {l : List String} {i : Nat} (h : i < l.length) (a : String) :
    (l.set i a).getD i "" = a := by
  rw [List.getD_eq_getElem?_getD, List.getElem?_set_self h]; rfl

theorem getD_set_ne {l : List String} {i j : Nat} (h : i ≠ j) (a : String) :
    (l.set i a).getD j "" = l.getD j "" := by
  rw [List.getD_eq_getElem?_getD, List.getElem?_set_ne h, ← List.getD_eq_getElem?_getD]

/-- Two sums with the same residue and offsets below the modulus have equal
residues; the workhorse for circular-index reasoning. -/
theorem mod_add_cancel {n a b c : Nat} (h : (a + b) % n = (a + c) % n)
    (hb : b < n) (hc : c < n) : b = c := by
  have h2 : b ≡ c [MOD n] := Nat.ModEq.add_left_cancel' a h
  have h3 : b % n = c % n := h2
  rwa [Nat.mod_eq_of_lt hb, Nat.mod_eq_of_lt hc] at h3

theorem mod_add_self_eq {n a b : Nat} (hn : 0 < n) (hb : b < n)
    (h : (a + b) % n = a % n) : b = 0 :=
  mod_add_cancel (c := 0) h hb hn

/-! ### RingBuffer structural lemmas -/

theorem WF_new (capacity : Int) : WF (NewRingBuffer capacity) := by
  have hc : 0 < (NewRingBuffer capacity).cap := by
    show 0 < (if capacity ≤ 0 then 100000 else capacity.toNat)
    split
    · omega
    · next h => omega
  exact ⟨List.length_replicate _ _, hc, hc, Nat.zero_le _, Nat.le_refl _⟩

theorem WF_append {rb : RingBuffer} (h : WF rb) (l : String) :
    WF ((rb.Append l).1) := by
  obtain ⟨hlen, hcap, hhead, hcnt, hts⟩ := h
  refine ⟨?_, hcap, ?_, ?_, ?_⟩ <;> simp only [RingBuffer.Append, List.length_set]
  · exact hlen
  · exact Nat.mod_lt _ hcap
  · split <;> omega
  · split <;> omega

theorem append_shape {rb : RingBuffer} (h : WF rb) (l : String) :
    ((rb.Append l).1).cap = rb.cap ∧
    ((rb.Append l).1).totalSeq = rb.totalSeq + 1 ∧
    ((rb.Append l).1).count = min (rb.count + 1) rb.cap := by
  obtain ⟨_, _, _, hcnt, _⟩ := h
  refine ⟨rfl, rfl, ?_⟩
  simp only [RingBuffer.Append]
  split <;> omega

theorem allLines_eq (rb : RingBuffer) :
    rb.AllLines = (List.range rb.count).map
      (fun i => rb.slot (((rb.head + rb.cap - rb.count) % rb.cap + i) % rb.cap)) := by
  unfold RingBuffer.AllLines
  by_cases h : rb.count = 0
  · simp [h]
  · simp [h]

theorem allLines_length (rb : RingBuffer) : rb.AllLines.length = rb.count := by
  rw [allLines_eq, List.length_map, List.length_range]

/-- One `Append` extends the oldest-to-newest view by the new line, evicting
the oldest retained line exactly when the buffer was full. -/
theorem allLines_append {rb : RingBuffer} (h : WF rb) (l : String) :
    ((rb.Append l).1).AllLines = (rb.AllLines ++ [l]).drop ((rb.count + 1) - rb.cap) := by
  obtain ⟨hlen, hcap, hhead, hcnt, hts⟩ := h
  have hheadlt : rb.head < rb.lines.length := by rw [hlen]; exact hhead
  have hsetH : (rb.lines.set rb.head l).getD rb.head "" = l := getD_set_self hheadlt l
  have hsetN : ∀ j, rb.head ≠ j →
      (rb.lines.set rb.head l).getD j "" = rb.lines.getD j "" :=
    fun j hj => getD_set_ne hj l
  have hAL : rb.AllLines = (List.range rb.count).map
      (fun i => rb.lines.getD (((rb.head + rb.cap - rb.count) % rb.cap + i) % rb.cap) "") :=
    allLines_eq rb
  have hAL2 : ((rb.Append l).1).AllLines
      = (List.range (if rb.count < rb.cap then rb.count + 1 else rb.count)).map
          (fun i => (rb.lines.set rb.head l).getD
            ((((rb.head + 1) % rb.cap + rb.cap
                - (if rb.count < rb.cap then rb.count + 1 else rb.count)) % rb.cap + i)
              % rb.cap) "") :=
    allLines_eq _
  by_cases hlt : rb.count < rb.cap
  · -- buffer not yet full: nothing evicted
    rw [if_pos hlt] at hAL2
    have hdrop : (rb.count + 1) - rb.cap = 0 := by omega
    rw [hdrop, List.drop_zero, hAL2, hAL, List.range_succ, List.map_append]
    have hidx : ∀ i : Nat,
        ((((rb.head + 1) % rb.cap + rb.cap - (rb.count + 1)) % rb.cap + i) % rb.cap)
          = (rb.head + (rb.cap - rb.count + i)) % rb.cap := by
      intro i
      have e1 : (rb.head + 1) % rb.cap + rb.cap - (rb.count + 1)
          = (rb.head + 1) % rb.cap + (rb.cap - (rb.count + 1)) := by omega
      rw [e1, Nat.mod_add_mod, Nat.add_assoc, Nat.mod_add_mod]
      congr 1
      omega
    have hidx2 : ∀ i : Nat,
        (((rb.head + rb.cap - rb.count) % rb.cap + i) % rb.cap)
          = (rb.head + (rb.cap - rb.count + i)) % rb.cap := by
      intro i
      rw [Nat.mod_add_mod]
      congr 1
      omega
    congr 1
    · apply List.map_congr_left
      intro i hi
      rw [List.mem_range] at hi
      dsimp only
      rw [hidx i, hidx2 i]
      apply hsetN
      intro hEq
      have hx : (rb.head + (rb.cap - rb.count + i)) % rb.cap = rb.head % rb.cap := by
        rw [Nat.mod_eq_of_lt hhead]
        exact hEq.symm
      have hz := mod_add_self_eq hcap (by omega) hx
      omega
    · simp only [List.map_cons, List.map_nil]
      rw [hidx rb.count]
      have e2 : (rb.head + (rb.cap - rb.count + rb.count)) % rb.cap = rb.head := by
        have e3 : rb.cap - rb.count + rb.count = rb.cap := by omega
        rw [e3, Nat.add_mod_right, Nat.mod_eq_of_lt hhead]
      rw [e2, hsetH]
  · -- buffer full: oldest line evicted
    have hceq : rb.count = rb.cap := by omega
    rw [if_neg hlt] at hAL2
    obtain ⟨m, hm⟩ : ∃ m, rb.cap = m + 1 := ⟨rb.cap - 1, by omega⟩
    have hdrop : (rb.count + 1) - rb.cap = 1 := by omega
    rw [hdrop, hAL2, hAL, hceq, hm]
    rw [List.drop_append_of_le_length (by rw [List.length_map, List.length_range]; omega)]
    rw [mapRange_drop]
    simp only [Nat.add_sub_cancel]
    rw [List.range_succ, List.map_append]
    have hidxA : ∀ i : Nat,
        (((rb.head + 1) % (m + 1)) % (m + 1) + i) % (m + 1) = (rb.head + (1 + i)) % (m + 1) := by
      intro i
      rw [Nat.mod_add_mod, Nat.mod_add_mod]
      congr 1
      omega
    have hidxB : ∀ j : Nat,
        (rb.head % (m + 1) + j) % (m + 1) = (rb.head + j) % (m + 1) := by
      intro j
      rw [Nat.mod_add_mod]
    congr 1
    · apply List.map_congr_left
      intro i hi
      rw [List.mem_range] at hi
      dsimp only
      rw [hidxA i, hidxB (1 + i)]
      apply hsetN
      intro hEq
      have hx : (rb.head + (1 + i)) % (m + 1) = rb.head % (m + 1) := by
        rw [Nat.mod_eq_of_lt (show rb.head < m + 1 by omega)]
        exact hEq.symm
      have hz := mod_add_self_eq (by omega) (by omega) hx
      omega
    · simp only [List.map_cons, List.map_nil]
      rw [hidxA m]
      have e2 : (rb.head + (1 + m)) % (m + 1) = rb.head := by
        have e3 : 1 + m = m + 1 := by omega
        rw [e3, Nat.add_mod_right, Nat.mod_eq_of_lt (show rb.head < m + 1 by omega)]
      rw [e2, hsetH]

theorem WF_appendAll {rb : RingBuffer} (h : WF rb) (ls : List String) :
    WF (appendAll rb ls) := by
  induction ls generalizing rb with
  | nil => exact h
  | cons l ls ih => exact ih (WF_append h l)

theorem appendAll_shape {rb : RingBuffer} (h : WF rb) (ls : List String) :
    (appendAll rb ls).cap = rb.cap ∧
    (appendAll rb ls).totalSeq = rb.totalSeq + ls.length ∧
    (appendAll rb ls).count = min (rb.count + ls.length) rb.cap := by
  induction ls generalizing rb with
  | nil =>
    have hcnt := h.2.2.2.1
    refine ⟨rfl, rfl, ?_⟩
    show rb.count = min (rb.count + List.length []) rb.cap
    simp
    omega
  | cons l ls ih =>
    have hstep : appendAll rb (l :: ls) = appendAll ((rb.Append l).1) ls := rfl
    obtain ⟨hc, ht, hn⟩ := ih (WF_append h l)
    obtain ⟨hc1, ht1, hn1⟩ := append_shape h l
    have hcnt := h.2.2.2.1
    rw [hstep, List.length_cons]
    refine ⟨by rw [hc, hc1], by rw [ht, ht1]; omega, by rw [hn, hn1, hc1]; omega⟩

theorem appendAll_allLines {rb : RingBuffer} (h : WF rb) (ls : List String) :
    (appendAll rb ls).AllLines
      = (rb.AllLines ++ ls).drop ((rb.count + ls.length) - rb.cap) := by
  induction ls generalizing rb with
  | nil =>
    have hcnt := h.2.2.2.1
    simp only [appendAll, List.foldl_nil, List.append_nil, List.length_nil]
    rw [show rb.count + 0 - rb.cap = 0 by omega, List.drop_zero]
  | cons l ls ih =>
    have hstep : appendAll rb (l :: ls) = appendAll ((rb.Append l).1) ls := rfl
    rw [hstep, ih (WF_append h l), allLines_append h l]
    obtain ⟨hc1, ht1, hn1⟩ := append_shape h l
    rw [hn1, hc1]
    have hcnt := h.2.2.2.1
    have hle : rb.count + 1 - rb.cap ≤ (rb.AllLines ++ [l]).length := by
      rw [List.length_append, allLines_length, List.length_singleton]
      omega
    rw [← List.drop_append_of_le_length hle, List.drop_drop, List.length_cons]
    congr 1
    all_goals try omega
    all_goals simp [List.append_assoc]

theorem buildRB_shape (capacity : Int) (ls : List String) :
    (buildRB capacity ls).totalSeq = ls.length ∧
    (buildRB capacity ls).count = min ls.length (buildRB capacity ls).cap ∧
    (buildRB capacity ls).cap = (NewRingBuffer capacity).cap := by
  obtain ⟨hc, ht, hn⟩ := appendAll_shape (WF_new capacity) ls
  have hb : buildRB capacity ls = appendAll (NewRingBuffer capacity) ls := rfl
  have h0c : (NewRingBuffer capacity).count = 0 := rfl
  have h0t : (NewRingBuffer capacity).totalSeq = 0 := rfl
  rw [hb]
  exact ⟨by omega, by omega, hc⟩

/-- The retained lines of a buffer built by appending the history `ls` are
exactly the last `min ls.length cap` elements of `ls`, in order. -/
theorem buildRB_allLines (capacity : Int) (ls : List String) :
    (buildRB capacity ls).AllLines = ls.drop (ls.length - (buildRB capacity ls).count) := by
  have h0 : (NewRingBuffer capacity).AllLines = [] := rfl
  have h0c : (NewRingBuffer capacity).count = 0 := rfl
  have h1 := appendAll_allLines (WF_new capacity) ls
  obtain ⟨ht, hn, hc⟩ := buildRB_shape capacity ls
  rw [show buildRB capacity ls = appendAll (NewRingBuffer capacity) ls from rfl] at hn hc ⊢
  rw [h1, h0, List.nil_append]
  congr 1
  have hcap := (WF_new capacity).2.1
  omega

/-! ### ReadRange characterization -/

/-- The oldest retained sequence number, `total_seq - count`. -/
def oldestOf (rb : RingBuffer) : Nat := rb.totalSeq - rb.count

/-- The cursor after `ReadRange`'s silent clamping. -/
def clampFrom (rb : RingBuffer) (fromSeq : Nat) : Nat :=
  if fromSeq < oldestOf rb then oldestOf rb else fromSeq

/-- How many lines a successful `ReadRange` returns. -/
def takeCount (rb : RingBuffer) (fromSeq : Nat) (count : Int) : Nat :=
  min count.toNat (rb.totalSeq - clampFrom rb fromSeq)

theorem readRange_spec (rb : RingBuffer) (h : WF rb) (fromSeq : Nat) (count : Int)
    (hne : rb.count ≠ 0) (hcpos : 0 < count) (hlt : fromSeq < rb.totalSeq) :
    rb.ReadRange fromSeq count =
      ((rb.AllLines.drop (clampFrom rb fromSeq - oldestOf rb)).take
          (takeCount rb fromSeq count),
        clampFrom rb fromSeq + takeCount rb fromSeq count,
        decide (clampFrom rb fromSeq + takeCount rb fromSeq count < rb.totalSeq)) := by
  obtain ⟨hlen, hcap, hhead, hcnt, hts⟩ := h
  have hg1 : ¬(rb.count = 0 ∨ count ≤ 0) := by
    push_neg
    exact ⟨hne, by omega⟩
  rw [RingBuffer.ReadRange, if_neg hg1]
  simp only [clampFrom, oldestOf, takeCount]
  set f := (if fromSeq < rb.totalSeq - rb.count then rb.totalSeq - rb.count else fromSeq)
    with hf
  have hflt : f < rb.totalSeq := by
    rw [hf]
    split <;> omega
  have hfo : rb.totalSeq - rb.count ≤ f := by
    rw [hf]
    split <;> omega
  rw [if_neg (by omega)]
  have hc0 : (if rb.totalSeq - f < count.toNat then rb.totalSeq - f else count.toNat)
      = min count.toNat (rb.totalSeq - f) := by
    split <;> omega
  rw [hc0]
  refine congrArg₂ Prod.mk ?_ rfl
  rw [allLines_eq, mapRange_drop, mapRange_take _ _ _ (by omega)]
  apply List.map_congr_left
  intro i hi
  rw [List.mem_range] at hi
  dsimp only
  congr 1
  rw [Nat.mod_add_mod, Nat.mod_add_mod]
  congr 1
  omega

/-! ### Cursor pagination -/

/-- The pagination loop of the claim: repeatedly call `ReadRange` with chunk
size `c`, advancing the cursor to the returned next cursor, while `has_more`
holds.  `fuel` bounds the number of iterations; the final component is the
last `has_more` value observed. -/
def paginate (rb : RingBuffer) (c : Int) : Nat → Nat → List String × Bool
  | _, 0 => ([], true)
  | cursor, fuel + 1 =>
    let r := rb.ReadRange cursor c
    if r.2.2 then
      let rest := paginate rb c r.2.1 fuel
      (r.1 ++ rest.1, rest.2)
    else (r.1, false)

theorem paginate_spec (rb : RingBuffer) (h : WF rb) (hne : rb.count ≠ 0)
    (c : Int) (hc : 1 ≤ c) :
    ∀ fuel cursor, rb.totalSeq ≤ cursor + fuel → 1 ≤ fuel →
      paginate rb c cursor fuel
        = (rb.AllLines.drop (clampFrom rb cursor - oldestOf rb), false) := by
  intro fuel
  induction fuel using Nat.strong_induction_on with
  | _ fuel ih =>
    intro cursor hfuel hpos
    obtain ⟨k, rfl⟩ : ∃ k, fuel = k + 1 := ⟨fuel - 1, by omega⟩
    have hwf := h
    obtain ⟨hlen, hcap, hhead, hcnt, hts⟩ := hwf
    have ho : oldestOf rb = rb.totalSeq - rb.count := rfl
    by_cases hcur : cursor < rb.totalSeq
    · have hr := readRange_spec rb h cursor c hne (by omega) hcur
      have hcf : clampFrom rb cursor
          = if cursor < rb.totalSeq - rb.count then rb.totalSeq - rb.count else cursor := rfl
      have htk : takeCount rb cursor c
          = min c.toNat (rb.totalSeq - clampFrom rb cursor) := rfl
      have hfo : rb.totalSeq - rb.count ≤ clampFrom rb cursor := by
        rw [hcf]
        split <;> omega
      have hfl : clampFrom rb cursor < rb.totalSeq := by
        rw [hcf]
        split <;> omega
      have hcle : cursor ≤ clampFrom rb cursor := by
        rw [hcf]
        split <;> omega
      have htc1 : 1 ≤ takeCount rb cursor c := by
        rw [htk]
        omega
      have htc2 : takeCount rb cursor c ≤ rb.totalSeq - clampFrom rb cursor := by
        rw [htk]
        omega
      rw [paginate, hr]
      by_cases hmore : clampFrom rb cursor + takeCount rb cursor c < rb.totalSeq
      · rw [if_pos (decide_eq_true hmore)]
        have hknz : 1 ≤ k := by omega
        have hnext : rb.totalSeq ≤ (clampFrom rb cursor + takeCount rb cursor c) + k := by
          omega
        have hrec := ih k (by omega) (clampFrom rb cursor + takeCount rb cursor c) hnext hknz
        simp only at hrec ⊢
        rw [hrec]
        have hclamp2 : clampFrom rb (clampFrom rb cursor + takeCount rb cursor c)
            = clampFrom rb cursor + takeCount rb cursor c := by
          show (if clampFrom rb cursor + takeCount rb cursor c < oldestOf rb
              then oldestOf rb else clampFrom rb cursor + takeCount rb cursor c) = _
          rw [if_neg (by rw [ho]; omega)]
        rw [hclamp2]
        have hdd : rb.AllLines.drop
              (clampFrom rb cursor + takeCount rb cursor c - oldestOf rb)
            = (rb.AllLines.drop (clampFrom rb cursor - oldestOf rb)).drop
                (takeCount rb cursor c) := by
          rw [List.drop_drop]
          congr 1
          rw [ho] at *
          omega
        rw [hdd, List.take_append_drop]
      · rw [if_neg (fun hcontra => hmore (of_decide_eq_true hcontra))]
        have htake : takeCount rb cursor c = rb.totalSeq - clampFrom rb cursor := by
          omega
        have hlen2 : (rb.AllLines.drop (clampFrom rb cursor - oldestOf rb)).length
            = takeCount rb cursor c := by
          rw [List.length_drop, allLines_length, htake, ho]
          omega
        rw [← hlen2, List.take_length]
    · -- cursor at or past the end: a single empty read, no more
      have hclamp : clampFrom rb cursor = cursor := by
        show (if cursor < oldestOf rb then oldestOf rb else cursor) = cursor
        rw [if_neg (by rw [ho]; omega)]
      have hcontract : rb.ReadRange cursor c = ([], cursor, false) := by
        rw [RingBuffer.ReadRange, if_neg (by push_neg; exact ⟨hne, by omega⟩)]
        simp only
        rw [show (if cursor < rb.totalSeq - rb.count then rb.totalSeq - rb.count else cursor)
              = cursor by split <;> omega,
          if_pos (by omega)]
      rw [paginate, hcontract]
      simp only [if_neg Bool.false_ne_true]
      rw [hclamp, List.drop_eq_nil_of_le (by rw [allLines_length, ho]; omega)]

/-- C1: for every well-formed RingBuffer state and every `ReadRange(from, count)`
call: a `from` below the oldest retained sequence is silently clamped to it;
if `from ≥ total_seq`, `count ≤ 0`, or the buffer is empty, the call returns
no lines with next cursor `from` and `has_more = false`; otherwise it returns
`min(count, total_seq − from)` lines starting at the clamped `from` (the
corresponding slice of the oldest-to-newest view), with next cursor
`from + len(returned)` and `has_more` true iff that next cursor is below
`total_seq`. -/
theorem C1_readRange_contract (rb : RingBuffer) (h : WF rb) (fromSeq : Nat) (count : Int) :
    (rb.totalSeq ≤ fromSeq ∨ count ≤ 0 ∨ rb.count = 0 →
        rb.ReadRange fromSeq count = ([], fromSeq, false)) ∧
    (fromSeq < rb.totalSeq → 0 < count → rb.count ≠ 0 →
        (rb.ReadRange fromSeq count).1
            = (rb.AllLines.drop (clampFrom rb fromSeq - oldestOf rb)).take
                (min count.toNat (rb.totalSeq - clampFrom rb fromSeq)) ∧
        (rb.ReadRange fromSeq count).1.length
            = min count.toNat (rb.totalSeq - clampFrom rb fromSeq) ∧
        (rb.ReadRange fromSeq count).2.1
            = clampFrom rb fromSeq + (rb.ReadRange fromSeq count).1.length ∧
        ((rb.ReadRange fromSeq count).2.2 = true ↔
          (rb.ReadRange fromSeq count).2.1 < rb.totalSeq)) := by
  obtain ⟨hlen, hcap, hhead, hcnt, hts⟩ := h
  constructor
  · intro hor
    by_cases hg : rb.count = 0 ∨ count ≤ 0
    · rw [RingBuffer.ReadRange, if_pos hg]
    · push_neg at hg
      have hfrom : rb.totalSeq ≤ fromSeq := by
        rcases hor with h1 | h2 | h3
        · exact h1
        · exact absurd h2 (by omega)
        · exact absurd h3 hg.1
      rw [RingBuffer.ReadRange, if_neg (by push_neg; exact hg)]
      simp only
      rw [show (if fromSeq < rb.totalSeq - rb.count then rb.totalSeq - rb.count else fromSeq)
            = fromSeq by split <;> omega,
        if_pos (by omega)]
  · intro h1 h2 h3
    have hr := readRange_spec rb ⟨hlen, hcap, hhead, hcnt, hts⟩ fromSeq count h3 h2 h1
    have ho : oldestOf rb = rb.totalSeq - rb.count := rfl
    have hfo : rb.totalSeq - rb.count ≤ clampFrom rb fromSeq := by
      show rb.totalSeq - rb.count ≤ (if fromSeq < oldestOf rb then oldestOf rb else fromSeq)
      rw [ho]
      split <;> omega
    have hfl : clampFrom rb fromSeq < rb.totalSeq := by
      show (if fromSeq < oldestOf rb then oldestOf rb else fromSeq) < rb.totalSeq
      rw [ho]
      split <;> omega
    rw [hr]
    simp only
    have hlen1 : ((rb.AllLines.drop (clampFrom rb fromSeq - oldestOf rb)).take
        (takeCount rb fromSeq count)).length = takeCount rb fromSeq count := by
      rw [List.length_take, List.length_drop, allLines_length, ho,
        show takeCount rb fromSeq count
          = min count.toNat (rb.totalSeq - clampFrom rb fromSeq) from rfl]
      omega
    refine ⟨rfl, hlen1, ?_, ?_⟩
    · rw [hlen1]
    · simp [decide_eq_true_eq]

/-- Witness: C1 applied to a concrete buffer holding "a","b","c". -/
theorem C1_witness :
    ((buildRB 5 ["a", "b", "c"]).ReadRange 1 2).1
        = ((buildRB 5 ["a", "b", "c"]).AllLines.drop
            (clampFrom (buildRB 5 ["a", "b", "c"]) 1 - oldestOf (buildRB 5 ["a", "b", "c"]))).take
            (min (2 : Int).toNat
              ((buildRB 5 ["a", "b", "c"]).totalSeq - clampFrom (buildRB 5 ["a", "b", "c"]) 1)) :=
  ((C1_readRange_contract (buildRB 5 ["a", "b", "c"]) (by decide) 1 2).2
      (by decide) (by decide) (by decide)).1

/-- C2: paginating any buffer built by a history of appends with a fixed
chunk size `c ≥ 1`, starting from cursor 0 and advancing to each returned
next cursor, visits exactly the currently-retained lines (the last
`min ls.length cap` appended lines) once, in oldest-to-newest order, and the
final `has_more` is false. -/
theorem C2_pagination (capacity : Int) (ls : List String) (c : Int) (hc : 1 ≤ c) :
    paginate (buildRB capacity ls) c 0 ((buildRB capacity ls).totalSeq + 1)
        = ((buildRB capacity ls).AllLines, false) ∧
    (buildRB capacity ls).AllLines
        = ls.drop (ls.length - (buildRB capacity ls).count) ∧
    (buildRB capacity ls).count = min ls.length (buildRB capacity ls).cap ∧
    (buildRB capacity ls).totalSeq = ls.length := by
  obtain ⟨ht, hn, hcp⟩ := buildRB_shape capacity ls
  refine ⟨?_, buildRB_allLines capacity ls, hn, ht⟩
  by_cases hz : (buildRB capacity ls).count = 0
  · have hAL0 : (buildRB capacity ls).AllLines = [] := by
      rw [RingBuffer.AllLines, if_pos hz]
    have hread : (buildRB capacity ls).ReadRange 0 c = ([], 0, false) := by
      rw [RingBuffer.ReadRange, if_pos (Or.inl hz)]
    rw [paginate, hread]
    simp only [if_neg Bool.false_ne_true]
    rw [hAL0]
  · have hp := paginate_spec (buildRB capacity ls) (WF_appendAll (WF_new capacity) ls) hz c hc
      ((buildRB capacity ls).totalSeq + 1) 0 (by omega) (by omega)
    rw [hp]
    have h0 : clampFrom (buildRB capacity ls) 0 - oldestOf (buildRB capacity ls) = 0 := by
      show (if 0 < oldestOf (buildRB capacity ls) then oldestOf (buildRB capacity ls) else 0)
          - oldestOf (buildRB capacity ls) = 0
      split <;> omega
    rw [h0, List.drop_zero]

/-- Witness: C2 applied to capacity 2 and history "x","y","z". -/
theorem C2_witness :
    paginate (buildRB 2 ["x", "y", "z"]) 2 0 ((buildRB 2 ["x", "y", "z"]).totalSeq + 1)
        = ((buildRB 2 ["x", "y", "z"]).AllLines, false) :=
  (C2_pagination 2 ["x", "y", "z"] 2 (by decide)).1

/-! ### Search characterization -/

theorem hasSubL_nil (cs : List Char) : hasSubL [] cs = true := by
  cases cs <;> simp [hasSubL, isPre]

theorem searchGo_spec (rb : RingBuffer) (lp : String) (oldest start : Nat) :
    ∀ n b i,
      rb.searchGo lp oldest start n b i
        = (((List.range' i n).filter
              (fun j => hasSub (toLowerStr (rb.slot ((start + j) % rb.cap))) lp)).map
            (fun j => (⟨oldest + j, rb.slot ((start + j) % rb.cap)⟩ : SearchResult))).take b := by
  intro n
  induction n with
  | zero =>
    intro b i
    simp [RingBuffer.searchGo]
  | succ n ih =>
    intro b i
    match b with
    | 0 => simp [RingBuffer.searchGo]
    | b + 1 =>
      rw [List.range'_succ]
      simp only [List.filter_cons]
      by_cases hmatch : hasSub (toLowerStr (rb.slot ((start + i) % rb.cap))) lp = true
      · simp only [RingBuffer.searchGo, hmatch, if_pos, if_true]
        rw [List.map_cons, List.take_succ_cons, ih b (i + 1)]
      · simp only [RingBuffer.searchGo]
        rw [if_neg hmatch, if_neg hmatch, ih (b + 1) (i + 1)]

theorem seqLines_eq (rb : RingBuffer) :
    seqLines rb = (List.range rb.count).map
      (fun i => (⟨rb.totalSeq - rb.count + i,
        rb.slot (((rb.head + rb.cap - rb.count) % rb.cap + i) % rb.cap)⟩ : SearchResult)) := by
  unfold seqLines
  rw [allLines_length]
  apply List.map_congr_left
  intro i hi
  rw [List.mem_range] at hi
  dsimp only
  congr 1
  rw [List.getD_eq_getElem?_getD, allLines_eq, List.getElem?_map, List.getElem?_range hi]
  rfl

/-- C3: `Search(pattern, max)` returns, oldest to newest, exactly the
retained lines containing the pattern case-insensitively, each paired with
its sequence number (the `min max` prefix of the filtered sequence-numbered
view), with strictly increasing sequence values; the empty pattern matches
every retained line up to `max`. -/
theorem C3_search_contract (rb : RingBuffer) (h : WF rb) (pattern : String) (m : Int)
    (hm : 1 ≤ m) :
    rb.Search pattern m
        = ((seqLines rb).filter
            (fun e => hasSub (toLowerStr e.line) (toLowerStr pattern))).take m.toNat ∧
    ((rb.Search pattern m).map SearchResult.seq).Pairwise (· < ·) ∧
    (pattern = "" → rb.Search pattern m = (seqLines rb).take m.toNat) := by
  have hmain : rb.Search pattern m
      = ((seqLines rb).filter
          (fun e => hasSub (toLowerStr e.line) (toLowerStr pattern))).take m.toNat := by
    by_cases hz : rb.count = 0
    · rw [RingBuffer.Search, if_pos (Or.inl hz)]
      have hsl : seqLines rb = [] := by
        rw [seqLines_eq, hz]
        rfl
      rw [hsl]
      simp
    · rw [RingBuffer.Search, if_neg (by push_neg; exact ⟨hz, by omega⟩)]
      rw [searchGo_spec rb (toLowerStr pattern) (rb.totalSeq - rb.count)
          ((rb.head + rb.cap - rb.count) % rb.cap) rb.count m.toNat 0,
        ← List.range_eq_range', seqLines_eq, List.filter_map]
      rfl
  refine ⟨hmain, ?_, ?_⟩
  · have hpw : ((seqLines rb).map SearchResult.seq).Pairwise (· < ·) := by
      rw [seqLines_eq, List.map_map]
      exact List.Pairwise.map _
        (fun a b hab => by dsimp only [Function.comp_apply]; omega)
        (List.pairwise_lt_range rb.count)
    have hsub : (rb.Search pattern m).Sublist (seqLines rb) := by
      rw [hmain]
      exact (List.take_sublist _ _).trans (List.filter_sublist _)
    exact List.Pairwise.sublist (hsub.map SearchResult.seq) hpw
  · intro hp
    rw [hmain, hp]
    have hfe : List.filter (fun e => hasSub (toLowerStr e.line) (toLowerStr ""))
        (seqLines rb) = seqLines rb :=
      List.filter_eq_self.mpr (fun e _ => hasSubL_nil _)
    rw [hfe]

/-- Witness: C3 applied to a mixed-case buffer. -/
theorem C3_witness :
    (buildRB 10 ["hello world", "foo", "Hello again", "bye"]).Search "hello" 10
        = ((seqLines (buildRB 10 ["hello world", "foo", "Hello again", "bye"])).filter
            (fun e => hasSub (toLowerStr e.line) (toLowerStr "hello"))).take (10 : Int).toNat :=
  (C3_search_contract (buildRB 10 ["hello world", "foo", "Hello again", "bye"])
      (by decide) "hello" 10 (by decide)).1

/-- C4: the claim (and the repository's own test `TestRingBufferDefaultCapacity`,
and the spec) say a non-positive constructor argument yields capacity 10 000,
but the code's fallback constant is 100 000; evaluating the constructor at
the failing input records what the code actually does. -/
theorem C4_default_capacity_eval :
    (NewRingBuffer 0).cap = 100000 ∧ (NewRingBuffer (-3)).cap = 100000 ∧
    (NewRingBuffer 0).cap ≠ 10000 := by
  refine ⟨rfl, rfl, by decide⟩

/-! ### Frame effects: read-only methods as state transformers

The Go query methods take the receiver pointer and could mutate it; their
translations below return the (possibly updated) state together with the
result, recording that their bodies contain no field assignment. -/

/-- Method-level translation of `Len`: state out, result. -/
def RingBuffer.LenS (rb : RingBuffer) : RingBuffer × Nat := (rb, rb.count)

/-- Method-level translation of `TotalSeq`. -/
def RingBuffer.TotalSeqS (rb : RingBuffer) : RingBuffer × Nat := (rb, rb.totalSeq)

/-- Method-level translation of `LastN`. -/
def RingBuffer.LastNS (rb : RingBuffer) (n : Int) : RingBuffer × List String :=
  (rb, rb.LastN n)

/-- Method-level translation of `ReadRange`. -/
def RingBuffer.ReadRangeS (rb : RingBuffer) (fromSeq : Nat) (count : Int) :
    RingBuffer × (List String × Nat × Bool) :=
  (rb, rb.ReadRange fromSeq count)

/-- Method-level translation of `AllLines`. -/
def RingBuffer.AllLinesS (rb : RingBuffer) : RingBuffer × List String := (rb, rb.AllLines)

/-- Method-level translation of `Search`. -/
def RingBuffer.SearchS (rb : RingBuffer) (pattern : String) (maxResults : Int) :
    RingBuffer × List SearchResult :=
  (rb, rb.Search pattern maxResults)

/-- C10: every read-only RingBuffer operation — `Len`, `TotalSeq`, `LastN`,
`ReadRange`, `AllLines`, and `Search` — leaves the buffer state (`cap`,
`head`, `count`, `total_seq`, and every stored line) unchanged: the state
after each query equals the state before it. -/
theorem C10_queries_pure (rb : RingBuffer) (n : Int) (fromSeq : Nat) (count : Int)
    (pattern : String) (maxResults : Int) :
    (rb.LenS).1 = rb ∧ (rb.TotalSeqS).1 = rb ∧ (rb.LastNS n).1 = rb ∧
    (rb.ReadRangeS fromSeq count).1 = rb ∧ (rb.AllLinesS).1 = rb ∧
    (rb.SearchS pattern maxResults).1 = rb :=
  ⟨rfl, rfl, rfl, rfl, rfl, rfl⟩

/-! ### ANSI stripping (third-party `stripansi.Strip`) -/

/-- States of the ANSI-stripping scan. -/
inductive AnsiMode
  | text
  | sawEsc
  | inCSI
  | inOSC
  | oscEsc
deriving DecidableEq, Repr

/-- Modelled from the spec: the third-party `stripansi.Strip` dependency is
not part of the repository; per the spec's ANSI-stripping note it removes
CSI sequences (`ESC [ … final-byte`), OSC sequences terminated by BEL or
`ESC \`, and other single-byte escape introducers, and keeps all other
characters. -/
def stripAnsiGo : AnsiMode → List Char → List Char
  | _, [] => []
  | .text, c :: rest =>
    if c = '\x1b' then stripAnsiGo .sawEsc rest else c :: stripAnsiGo .text rest
  | .sawEsc, c :: rest =>
    if c = '[' then stripAnsiGo .inCSI rest
    else if c = ']' then stripAnsiGo .inOSC rest
    else stripAnsiGo .text rest
  | .inCSI, c :: rest =>
    if '@' ≤ c ∧ c ≤ '~' then stripAnsiGo .text rest else stripAnsiGo .inCSI rest
  | .inOSC, c :: rest =>
    if c = '\x07' then stripAnsiGo .text rest
    else if c = '\x1b' then stripAnsiGo .oscEsc rest
    else stripAnsiGo .inOSC rest
  | .oscEsc, c :: rest =>
    if c = '\\' then stripAnsiGo .text rest else stripAnsiGo .inOSC rest

/-- Modelled from the spec: `stripansi.Strip` on a whole string. -/
def stripAnsi (s : String) : String := String.mk (stripAnsiGo .text s.toList)

/-! ### Session and the daemon's publisher-record handlers (store.go, daemon.go) -/

/-- Go `Session` from store.go.  Wall-clock times are abstract `Nat` instants;
`clientConn` is an abstract connection handle (`none` models Go's nil). -/
structure Session where
  id : String
  shortID : String
  title : String
  createdAt : Nat
  lastActivity : Nat
  lastCommand : String
  connected : Bool
  buffer : RingBuffer
  collab : Bool
  clientConn : Option Nat
deriving DecidableEq, Repr

/-- The daemon's `MsgOutput` arm: strip ANSI from each line, append to the
bound session's buffer, update `last_activity` (`now` models `time.Now()`). -/
def handleOutput (sess : Session) (lines : List String) (now : Nat) : Session :=
  { sess with
      buffer := appendAll sess.buffer (lines.map stripAnsi),
      lastActivity := now }

/-- The daemon's `MsgReplay` arm: append each replayed line verbatim (no
ANSI stripping on this path), overwrite `last_command` when the payload
supplies one, update `last_activity`. -/
def handleReplay (sess : Session) (lines : List String) (lastCmd : String) (now : Nat) :
    Session :=
  { sess with
      buffer := appendAll sess.buffer lines,
      lastCommand := if lastCmd ≠ "" then lastCmd else sess.lastCommand,
      lastActivity := now }

/-- The daemon's `MsgCommand` arm: record the command, update `last_activity`. -/
def handleCommand (sess : Session) (cmd : String) (now : Nat) : Session :=
  { sess with lastCommand := cmd, lastActivity := now }

/-- Go `Store.Create` from store.go, with the generated UUID string passed in
(`ShortID` is its first 8 characters; `now` models `time.Now()`). -/
def newSession (id : String) (title : String) (bufCap : Int) (collab : Bool)
    (conn : Option Nat) (now : Nat) : Session :=
  { id := id, shortID := String.mk (id.toList.take 8), title := title, createdAt := now,
    lastActivity := now, lastCommand := "", connected := true,
    buffer := NewRingBuffer bufCap, collab := collab, clientConn := conn }

/-- Counterexample to C5: a replay record carrying an ANSI-colored line is
appended to the session buffer verbatim — the daemon's replay arm does not
strip, so the stored line differs from its stripped form. -/
theorem C5_replay_no_strip_cex :
    (handleReplay (newSession "cafebabe-0000" "" 4 false none 0)
        ["\x1b[31mred"] "" 1).buffer.AllLines = ["\x1b[31mred"] ∧
    stripAnsi "\x1b[31mred" = "red" ∧ ("\x1b[31mred" : String) ≠ "red" := by
  refine ⟨by decide, by decide, by decide⟩

/-- C5 (amended): `output` records strip ANSI from each line before
appending, `replay` records append their lines verbatim, both update
`last_activity`; `replay` overwrites `last_command` exactly when it supplies
a non-empty one, and `command` records set `last_command`; the buffer then
holds the last `cap` of the old view extended by the ingested lines. -/
theorem C5_ingest_contract (sess : Session) (lines : List String) (lc cmd : String)
    (now : Nat) (h : WF sess.buffer) :
    (handleOutput sess lines now).buffer.AllLines
        = (sess.buffer.AllLines ++ lines.map stripAnsi).drop
            ((sess.buffer.count + lines.length) - sess.buffer.cap) ∧
    (handleOutput sess lines now).lastActivity = now ∧
    (handleOutput sess lines now).lastCommand = sess.lastCommand ∧
    (handleReplay sess lines lc now).buffer.AllLines
        = (sess.buffer.AllLines ++ lines).drop
            ((sess.buffer.count + lines.length) - sess.buffer.cap) ∧
    (handleReplay sess lines lc now).lastActivity = now ∧
    (handleReplay sess lines lc now).lastCommand
        = (if lc ≠ "" then lc else sess.lastCommand) ∧
    (handleCommand sess cmd now).lastCommand = cmd ∧
    (handleCommand sess cmd now).lastActivity = now ∧
    (handleCommand sess cmd now).buffer = sess.buffer := by
  refine ⟨?_, rfl, rfl, ?_, rfl, rfl, rfl, rfl, rfl⟩
  · have h1 := appendAll_allLines h (lines.map stripAnsi)
    rw [List.length_map] at h1
    exact h1
  · exact appendAll_allLines h lines

/-- Witness: C5 (amended) applied to a concrete session and replay record. -/
theorem C5_witness :
    (handleReplay (newSession "11112222-aaaa" "t" 4 false none 0) ["a"] "make" 7).lastCommand
        = (if ("make" : String) ≠ "" then "make"
          else (newSession "11112222-aaaa" "t" 4 false none 0).lastCommand) :=
  (C5_ingest_contract (newSession "11112222-aaaa" "t" 4 false none 0) ["a"] "make" "c" 7
      (by decide)).2.2.2.2.2.1

/-! ### Wrapper: stdin → PTY command detection (client.go) -/

/-- The wrapper state visible to `copyStdinToPTY` / `sendCommand`: the
command byte buffer, the connection flag, the remembered last command, and
the command records written to the socket so far (`sent`). -/
structure ClientState where
  cmdBuf : List Nat
  connected : Bool
  lastCommand : Option (List Nat)
  sent : List (List Nat)
deriving DecidableEq, Repr

/-- Go `Client.sendCommand` from client.go: an empty command returns without
doing anything; otherwise the command is remembered and, when connected,
emitted as a `command` record. -/
def sendCommand (c : ClientState) (cmd : List Nat) : ClientState :=
  if cmd = [] then c
  else
    let c1 := { c with lastCommand := some cmd }
    if c1.connected then { c1 with sent := c1.sent ++ [cmd] } else c1

/-- The per-byte body of `Client.copyStdinToPTY`'s detection loop: CR/LF
flushes the buffer through `sendCommand`; 0x7F/0x08 truncates one byte;
bytes ≥ 0x20 are appended; other control bytes are ignored. -/
def procByte (c : ClientState) (b : Nat) : ClientState :=
  if b = 13 ∨ b = 10 then
    sendCommand { c with cmdBuf := [] } c.cmdBuf
  else if b = 127 ∨ b = 8 then
    { c with cmdBuf := c.cmdBuf.dropLast }
  else if 32 ≤ b then
    { c with cmdBuf := c.cmdBuf ++ [b] }
  else c

/-- Counterexample to C6: flushing with an empty command buffer emits no
`command` record at all (the claim says a record containing the empty buffer
is emitted) — `sendCommand` returns early on the empty command. -/
theorem C6_empty_flush_cex :
    procByte ⟨[], true, none, []⟩ 13 = ⟨[], true, none, []⟩ ∧
    (procByte ⟨[], true, none, []⟩ 13).sent = [] := by
  exact ⟨rfl, rfl⟩

/-- C6 (amended): a printable byte (≥ 0x20, other than 0x7F) is appended to
the command buffer; 0x7F or 0x08 truncates one byte; CR or LF always resets
the buffer but emits a `command` record (and updates the remembered last
command) only when the buffer is non-empty — an empty flush emits nothing;
record emission additionally requires the wrapper to be connected. -/
theorem C6_stdin_byte_contract (c : ClientState) (b : Nat) :
    (b = 13 ∨ b = 10 →
        (procByte c b).cmdBuf = [] ∧
        (procByte c b).sent
            = (if c.cmdBuf ≠ [] ∧ c.connected = true then c.sent ++ [c.cmdBuf] else c.sent) ∧
        (procByte c b).lastCommand
            = (if c.cmdBuf ≠ [] then some c.cmdBuf else c.lastCommand) ∧
        (procByte c b).connected = c.connected) ∧
    (¬(b = 13 ∨ b = 10) → b = 127 ∨ b = 8 →
        procByte c b = { c with cmdBuf := c.cmdBuf.dropLast }) ∧
    (¬(b = 13 ∨ b = 10) → ¬(b = 127 ∨ b = 8) → 32 ≤ b →
        procByte c b = { c with cmdBuf := c.cmdBuf ++ [b] }) ∧
    (¬(b = 13 ∨ b = 10) → ¬(b = 127 ∨ b = 8) → b < 32 →
        procByte c b = c) := by
  refine ⟨?_, ?_, ?_, ?_⟩
  · intro hb
    rw [procByte, if_pos hb, sendCommand]
    by_cases hbuf : c.cmdBuf = []
    · simp [hbuf]
    · simp only [if_neg hbuf]
      by_cases hconn : c.connected = true
      · simp [hbuf, hconn]
      · have hc2 : c.connected = false := by
          cases hcb : c.connected
          · rfl
          · exact absurd hcb hconn
        simp [hbuf, hc2]
  · intro hb1 hb2
    rw [procByte, if_neg hb1, if_pos hb2]
  · intro hb1 hb2 hb3
    rw [procByte, if_neg hb1, if_neg hb2, if_pos hb3]
  · intro hb1 hb2 hb3
    rw [procByte, if_neg hb1, if_neg hb2, if_neg (by omega)]

/-- Witness: C6 (amended) applied to a non-empty buffer flushed by CR. -/
theorem C6_witness :
    (procByte ⟨[108, 115], true, none, []⟩ 13).cmdBuf = [] ∧
    (procByte ⟨[108, 115], true, none, []⟩ 13).sent
        = (if ([108, 115] : List Nat) ≠ [] ∧ true = true
          then ([] : List (List Nat)) ++ [[108, 115]] else []) :=
  ⟨((C6_stdin_byte_contract ⟨[108, 115], true, none, []⟩ 13).1 (Or.inl rfl)).1,
    ((C6_stdin_byte_contract ⟨[108, 115], true, none, []⟩ 13).1 (Or.inl rfl)).2.1⟩

/-! ### Store lookup: FindByPrefix, FindByTitle, Resolve (store.go) -/

/-- Errors of the store's finders, distinguished in Go by their messages. -/
inductive FindErr
  | notFound
  | ambiguous
deriving DecidableEq, Repr

/-- The match condition of the prefix finder: the lowercased full id or the
lowercased short id starts with the (already lowercased) needle. -/
def matchesPref (p : String) (s : Session) : Bool :=
  isPre p.toList (toLowerStr s.id).toList || isPre p.toList (toLowerStr s.shortID).toList

/-- The loop of `Store.FindByPrefix`: walk the sessions keeping the single
match found so far; a second match fails ambiguous immediately. -/
def findLoop (p : String) : List Session → Option Session → Except FindErr Session
  | [], none => .error .notFound
  | [], some m => .ok m
  | s :: rest, acc =>
    if matchesPref p s then
      match acc with
      | some _ => .error .ambiguous
      | none => findLoop p rest (some s)
    else findLoop p rest acc

/-- Go `Store.FindByPrefix` (the store's map iteration is modelled as a list
walk; which error or session results does not depend on the order). -/
def FindByPfx (ss : List Session) (pre : String) : Except FindErr Session :=
  findLoop (toLowerStr pre) ss none

/-- Go `Store.FindByTitle`: first exact case-insensitive title match. -/
def FindByTitle (ss : List Session) (title : String) : Except FindErr Session :=
  match ss.find? (fun s => toLowerStr s.title == toLowerStr title) with
  | some s => .ok s
  | none => .error .notFound

def isHexDigitCh (c : Char) : Bool :=
  ('0' ≤ c && c ≤ '9') || ('a' ≤ c && c ≤ 'f') || ('A' ≤ c && c ≤ 'F')

/-- Modelled from the spec: the third-party `uuid.Parse` dependency is not
part of the repository; this models its canonical 36-character hyphenated
form (sufficient here: the empty string and non-UUID identifiers fail). -/
def uuidParseOk (s : String) : Bool :=
  s.toList.length == 36 &&
    (List.range 36).all (fun i =>
      if i = 8 ∨ i = 13 ∨ i = 18 ∨ i = 23 then s.toList.getD i ' ' == '-'
      else isHexDigitCh (s.toList.getD i ' '))

/-- Errors `Store.Resolve` can produce (by message); note neither is the
ambiguous error — `Resolve` swallows `FindByPrefix`'s errors. -/
inductive ResolveErr
  | idNotFound
  | noMatch
deriving DecidableEq, Repr

/-- Go `Store.Get` by full id (UUID comparison modelled as case-insensitive
string equality of the canonical form). -/
def StoreGet (ss : List Session) (id : String) : Option Session :=
  ss.find? (fun s => toLowerStr s.id == toLowerStr id)

/-- Go `Store.Resolve`: full-id parse first, then prefix match, then title
match; the final failure is a plain not-found error. -/
def Resolve (ss : List Session) (ident : String) : Except ResolveErr Session :=
  if uuidParseOk ident then
    match StoreGet ss ident with
    | some s => .ok s
    | none => .error .idNotFound
  else
    match FindByPfx ss ident with
    | .ok s => .ok s
    | .error _ =>
      match FindByTitle ss ident with
      | .ok s => .ok s
      | .error _ => .error .noMatch

theorem findLoop_spec (p : String) : ∀ ls : List Session,
    (ls.filter (matchesPref p) = [] →
        findLoop p ls none = .error .notFound ∧
        ∀ m, findLoop p ls (some m) = .ok m) ∧
    (∀ s rest2, ls.filter (matchesPref p) = s :: rest2 →
        (∀ m, findLoop p ls (some m) = .error .ambiguous) ∧
        (rest2 = [] → findLoop p ls none = .ok s) ∧
        (rest2 ≠ [] → findLoop p ls none = .error .ambiguous)) := by
  intro ls
  induction ls with
  | nil =>
    refine ⟨fun _ => ⟨rfl, fun m => rfl⟩, fun s rest2 hcontra => ?_⟩
    simp at hcontra
  | cons s0 ls ih =>
    by_cases hm : matchesPref p s0 = true
    · constructor
      · intro hfil
        rw [List.filter_cons, if_pos hm] at hfil
        simp at hfil
      · intro s rest2 hfil
        rw [List.filter_cons, if_pos hm] at hfil
        obtain ⟨rfl, rfl⟩ : s0 = s ∧ ls.filter (matchesPref p) = rest2 := by
          exact ⟨(List.cons.injEq _ _ _ _ ▸ hfil).1, (List.cons.injEq _ _ _ _ ▸ hfil).2⟩
        refine ⟨fun m => ?_, fun hr => ?_, fun hr => ?_⟩
        · simp only [findLoop, hm, if_true]
        · simp only [findLoop, hm, if_true]
          exact ((ih.1) hr).2 s0
        · simp only [findLoop, hm, if_true]
          obtain ⟨r, rest3, hrr⟩ : ∃ r rest3, ls.filter (matchesPref p) = r :: rest3 := by
            cases hx : ls.filter (matchesPref p) with
            | nil => exact absurd hx hr
            | cons r rest3 => exact ⟨r, rest3, rfl⟩
          exact ((ih.2) r rest3 hrr).1 s0
    · have hstep : ∀ acc, findLoop p (s0 :: ls) acc = findLoop p ls acc := by
        intro acc
        simp only [findLoop, hm, Bool.false_eq_true, if_false]
      have hfil : (s0 :: ls).filter (matchesPref p) = ls.filter (matchesPref p) := by
        rw [List.filter_cons, if_neg hm]
      constructor
      · intro h0
        rw [hfil] at h0
        exact ⟨by rw [hstep]; exact (ih.1 h0).1, fun m => by rw [hstep]; exact (ih.1 h0).2 m⟩
      · intro s rest2 h0
        rw [hfil] at h0
        obtain ⟨ha, hb, hc⟩ := ih.2 s rest2 h0
        exact ⟨fun m => by rw [hstep]; exact ha m,
          fun hr => by rw [hstep]; exact hb hr,
          fun hr => by rw [hstep]; exact hc hr⟩

/-- Counterexample to C7's second half: with two sessions (one of them
holding an empty title), `FindByPrefix("")` does fail ambiguous, but
`Resolve("")` swallows that error, falls through to title matching, and
returns the empty-titled session instead of failing Ambiguous. -/
theorem C7_empty_resolve_cex :
    FindByPfx [newSession "aaaa1111" "" 4 false none 0,
        newSession "bbbb2222" "b" 4 false none 0] "" = Except.error FindErr.ambiguous ∧
    Resolve [newSession "aaaa1111" "" 4 false none 0,
        newSession "bbbb2222" "b" 4 false none 0] ""
      = Except.ok (newSession "aaaa1111" "" 4 false none 0) :=
  ⟨rfl, rfl⟩

/-- C7 (amended): `find_by_prefix(p)` matches on lowercased full-id or
short-id prefixes, failing NotFound on zero matches and Ambiguous on two or
more; the empty prefix matches every session, so `find_by_prefix("")` fails
Ambiguous whenever the store holds at least two sessions — but `resolve("")`
swallows that error and falls through to title matching: it returns a
session whose (case-folded) title is empty if one exists, and otherwise
fails with the final not-found error, never Ambiguous. -/
theorem C7_prefix_resolve_contract (ss : List Session) (p : String) :
    (ss.filter (matchesPref (toLowerStr p)) = [] → FindByPfx ss p = .error .notFound) ∧
    (∀ s, ss.filter (matchesPref (toLowerStr p)) = [s] → FindByPfx ss p = .ok s) ∧
    (2 ≤ (ss.filter (matchesPref (toLowerStr p))).length →
        FindByPfx ss p = .error .ambiguous) ∧
    (∀ s, matchesPref (toLowerStr "") s = true) ∧
    (2 ≤ ss.length → FindByPfx ss "" = .error .ambiguous) ∧
    (2 ≤ ss.length →
        Resolve ss "" = (match FindByTitle ss "" with
          | .ok s => .ok s
          | .error _ => Except.error ResolveErr.noMatch)) := by
  have hspec := findLoop_spec (toLowerStr p) ss
  have hall : ∀ s : Session, matchesPref (toLowerStr "") s = true := fun s => rfl
  have hamb2 : 2 ≤ ss.length → FindByPfx ss "" = .error .ambiguous := by
    intro h2
    have hfe : ss.filter (matchesPref (toLowerStr "")) = ss :=
      List.filter_eq_self.mpr (fun a _ => hall a)
    obtain ⟨s, r, rest3, hx⟩ : ∃ s r rest3, ss = s :: r :: rest3 := by
      cases ss with
      | nil => simp at h2
      | cons a t =>
        cases t with
        | nil => simp at h2
        | cons r rest3 => exact ⟨a, r, rest3, rfl⟩
    have hspec0 := findLoop_spec (toLowerStr "") ss
    exact (hspec0.2 s (r :: rest3) (by rw [hfe, hx])).2.2 (by simp)
  refine ⟨fun h0 => (hspec.1 h0).1, fun s h1 => (hspec.2 s [] h1).2.1 rfl, ?_, hall,
    hamb2, ?_⟩
  · intro h2
    have htwo : ∀ l : List Session, 2 ≤ l.length → ∃ s r rest3, l = s :: r :: rest3 := by
      intro l hl
      cases l with
      | nil => simp at hl
      | cons a t =>
        cases t with
        | nil => simp at hl
        | cons r rest3 => exact ⟨a, r, rest3, rfl⟩
    obtain ⟨s, r, rest3, hx⟩ := htwo _ h2
    exact (hspec.2 s (r :: rest3) hx).2.2 (by simp)
  · intro h2
    have hp0 : uuidParseOk "" = false := rfl
    rw [Resolve]
    simp only [hp0, Bool.false_eq_true, if_false]
    rw [hamb2 h2]

/-- Witness: C7 (amended) on a concrete two-session store. -/
theorem C7_witness :
    FindByPfx [newSession "aaaa1111" "" 4 false none 0,
        newSession "bbbb2222" "b" 4 false none 0] "" = Except.error FindErr.ambiguous :=
  (C7_prefix_resolve_contract
      [newSession "aaaa1111" "" 4 false none 0,
        newSession "bbbb2222" "b" 4 false none 0] "").2.2.2.2.1 (by decide)

/-! ### Register / resumption (daemon.go MsgRegister) -/

/-- Modelled from the spec: `Store.CreateOrUpdate` is called from the
dispatcher but its body is not among the available sources; per the spec,
`create_or_update(id, title, cap, collab, conn)` creates a fresh session
when the id is absent, and when it is present updates `title/collab/conn`,
sets `connected := true`, and returns the pre-existing session with
`reconnected = true` (the caller then clears the buffer). -/
def CreateOrUpdate (ss : List Session) (id title : String) (bufCap : Int)
    (collab : Bool) (conn : Option Nat) (now : Nat) : List Session × Session × Bool :=
  match ss.find? (fun s => s.id == id) with
  | some s =>
    let s2 := { s with
        title := title, collab := collab, clientConn := conn, connected := true }
    (ss.map (fun t => if t.id == id then s2 else t), s2, true)
  | none =>
    let s := newSession id title bufCap collab conn now
    (ss ++ [s], s, false)

/-- The daemon's `MsgRegister` arm for a payload carrying a (valid) session
id: collab connections pass the live connection handle; on resumption the
session's ring buffer is cleared before anything else is applied.  Returns
the updated store, the acked short id, and whether this was a resumption. -/
def handleRegister (ss : List Session) (id title : String) (bufSize : Int)
    (collab : Bool) (conn : Nat) (now : Nat) : List Session × String × Bool :=
  let clientConn : Option Nat := if collab then some conn else none
  let r := CreateOrUpdate ss id title bufSize collab clientConn now
  if r.2.2 then
    (r.1.map (fun t => if t.id == id then { t with buffer := t.buffer.Clear } else t),
      r.2.1.shortID, true)
  else (r.1, r.2.1.shortID, false)

theorem find_id_unique {ss : List Session} {id : String}
    (huniq : (ss.map Session.id).Nodup) {s : Session} (hs : s ∈ ss) (hsid : s.id = id) :
    ss.find? (fun t => t.id == id) = some s := by
  induction ss with
  | nil => cases hs
  | cons a t ih =>
    rw [List.map_cons, List.nodup_cons] at huniq
    rcases List.mem_cons.mp hs with rfl | hmem
    · rw [List.find?_cons_of_pos _ (by simp [hsid])]
    · have hane : ¬a.id = id := by
        intro hcontra
        apply huniq.1
        rw [hcontra, ← hsid]
        exact List.mem_map_of_mem _ hmem
      rw [List.find?_cons_of_neg _ (by simp [hane])]
      exact ih huniq.2 hmem

/-- C8: a `register` carrying a session id already present in the store is
treated as resumption — the session is kept under the same id with its ring
buffer cleared (`head`, `count`, `total_seq` reset to zero and every slot
blanked) before replay is applied; a `register` with an unknown id creates
a new session. -/
theorem C8_register_resumption (ss : List Session) (id title : String) (bufSize : Int)
    (collab : Bool) (conn : Nat) (now : Nat)
    (huniq : (ss.map Session.id).Nodup) :
    (∀ s ∈ ss, s.id = id →
        (handleRegister ss id title bufSize collab conn now).2.2 = true ∧
        (handleRegister ss id title bufSize collab conn now).1
          = ss.map (fun t => if t.id = id then
              { s with
                  title := title, collab := collab,
                  clientConn := if collab then some conn else none,
                  connected := true, buffer := s.buffer.Clear }
            else t) ∧
        s.buffer.Clear.head = 0 ∧ s.buffer.Clear.count = 0 ∧
        s.buffer.Clear.totalSeq = 0 ∧ ∀ l ∈ s.buffer.Clear.lines, l = "") ∧
    ((∀ s ∈ ss, s.id ≠ id) →
        (handleRegister ss id title bufSize collab conn now).2.2 = false ∧
        (handleRegister ss id title bufSize collab conn now).1
          = ss ++ [newSession id title bufSize collab
              (if collab then some conn else none) now]) := by
  constructor
  · intro s hs hsid
    have hfind : ss.find? (fun t => t.id == id) = some s :=
      find_id_unique huniq hs hsid
    have hreg : handleRegister ss id title bufSize collab conn now
        = ((ss.map (fun t => if t.id == id then
              ({ s with
                  title := title, collab := collab,
                  clientConn := if collab then some conn else none,
                  connected := true } : Session) else t)).map
            (fun t => if t.id == id then { t with buffer := t.buffer.Clear } else t),
          ({ s with
              title := title, collab := collab,
              clientConn := if collab then some conn else none,
              connected := true } : Session).shortID,
          true) := by
      simp only [handleRegister, CreateOrUpdate, hfind, if_true]
    refine ⟨by rw [hreg], ?_, rfl, rfl, rfl, ?_⟩
    · rw [hreg]
      simp only
      rw [List.map_map]
      apply List.map_congr_left
      intro t ht
      by_cases hteq : t.id = id
      · simp [Function.comp_apply, hteq, hsid]
      · simp [Function.comp_apply, hteq]
    · intro l hl
      obtain ⟨a, _, ha⟩ := List.mem_map.mp hl
      exact ha.symm
  · intro hno
    have hfind : ss.find? (fun t => t.id == id) = none := by
      rw [List.find?_eq_none]
      intro t ht
      simp only [beq_iff_eq]
      exact hno t ht
    have hreg : handleRegister ss id title bufSize collab conn now
        = (ss ++ [newSession id title bufSize collab
            (if collab then some conn else none) now], (newSession id title bufSize collab
            (if collab then some conn else none) now).shortID, false) := by
      simp only [handleRegister, CreateOrUpdate, hfind, Bool.false_eq_true, if_false]
    exact ⟨by rw [hreg], by rw [hreg]⟩

/-- Witness: C8 applied to a one-session store re-registering the same id. -/
theorem C8_witness :
    (handleRegister [newSession "abc" "t" 4 false none 0] "abc" "t2" 4 true 9 5).2.2
      = true :=
  ((C8_register_resumption [newSession "abc" "t" 4 false none 0] "abc" "t2" 4 true 9 5
      (by simp)).1 (newSession "abc" "t" 4 false none 0) (by simp) rfl).1

/-! ### write_session (store.go Session.SendInput, daemon.go MsgWriteSession) -/

/-- Errors of `Session.SendInput`, distinguished in Go by message. -/
inductive WriteErr
  | notCollab (shortID : String)
  | notConnected (shortID : String)
deriving DecidableEq, Repr

/-- Go `Session.SendInput`: requires `collab`, then `connected` with a live
client connection; on success the `input` record (connection handle, text)
is emitted. -/
def Session.SendInput (s : Session) (text : String) : Except WriteErr (Nat × String) :=
  if ¬s.collab then .error (.notCollab s.shortID)
  else if ¬s.connected then .error (.notConnected s.shortID)
  else
    match s.clientConn with
    | none => .error (.notConnected s.shortID)
    | some conn => .ok (conn, text)

/-- A `write_session` reply: an `error` record, or `ack` with
`{success, session_id, bytes_sent}`. -/
inductive WSReply
  | errReply (e : ResolveErr ⊕ WriteErr)
  | ack (success : Bool) (sessionID : String) (bytesSent : Nat)
deriving DecidableEq, Repr

/-- The daemon's `MsgWriteSession` arm: resolve, send, reply; returns the
(unchanged) store, the reply, and the list of emitted `input` records. -/
def handleWriteSession (ss : List Session) (ident text : String) :
    List Session × WSReply × List (Nat × String) :=
  match Resolve ss ident with
  | .error e => (ss, .errReply (.inl e), [])
  | .ok s =>
    match Session.SendInput s text with
    | .error e => (ss, .errReply (.inr e), [])
    | .ok r => (ss, .ack true s.shortID text.utf8ByteSize, [r])

/-- C9: `write_session` resolves the target session and, exactly when that
session has `collab = true`, `connected = true` and a live client
connection, emits one `input` record carrying the text to the wrapper and
replies `ack` with `success = true`, the session's short id, and
`bytes_sent` equal to the byte length of the text; otherwise (unknown
session, not collaborative, or not connected) it replies with an `error`
record and emits nothing; the store is unchanged in every case. -/
theorem C9_write_session_contract (ss : List Session) (ident text : String) :
    (handleWriteSession ss ident text).1 = ss ∧
    (∀ s, Resolve ss ident = .ok s → s.collab = true → s.connected = true →
        ∀ cn, s.clientConn = some cn →
          (handleWriteSession ss ident text).2.1 = .ack true s.shortID text.utf8ByteSize ∧
          (handleWriteSession ss ident text).2.2 = [(cn, text)]) ∧
    (∀ s, Resolve ss ident = .ok s →
        (s.collab = false ∨ s.connected = false ∨ s.clientConn = none) →
          (∃ e, (handleWriteSession ss ident text).2.1 = .errReply (.inr e)) ∧
          (handleWriteSession ss ident text).2.2 = []) ∧
    (∀ e, Resolve ss ident = .error e →
        (handleWriteSession ss ident text).2.1 = .errReply (.inl e) ∧
        (handleWriteSession ss ident text).2.2 = []) := by
  refine ⟨?_, ?_, ?_, ?_⟩
  · unfold handleWriteSession
    cases hres : Resolve ss ident with
    | error e => rfl
    | ok s =>
      cases hsend : Session.SendInput s text with
      | error e => simp [hsend]
      | ok r => simp [hsend]
  · intro s hres hcollab hconn cn hcn
    have hsend : Session.SendInput s text = .ok (cn, text) := by
      unfold Session.SendInput
      rw [if_neg (by simp [hcollab]), if_neg (by simp [hconn]), hcn]
    constructor <;> simp only [handleWriteSession, hres, hsend]
  · intro s hres hbad
    have hsend : ∃ e, Session.SendInput s text = .error e := by
      unfold Session.SendInput
      rcases hbad with hb | hb | hb
      · rw [if_pos (by simp [hb])]
        exact ⟨_, rfl⟩
      · by_cases hc : s.collab = true
        · rw [if_neg (by simp [hc]), if_pos (by simp [hb])]
          exact ⟨_, rfl⟩
        · rw [if_pos (by simpa using hc)]
          exact ⟨_, rfl⟩
      · by_cases hc : s.collab = true
        · by_cases hc2 : s.connected = true
          · rw [if_neg (by simp [hc]), if_neg (by simp [hc2]), hb]
            exact ⟨_, rfl⟩
          · rw [if_neg (by simp [hc]), if_pos (by simpa using hc2)]
            exact ⟨_, rfl⟩
        · rw [if_pos (by simpa using hc)]
          exact ⟨_, rfl⟩
    obtain ⟨e, he⟩ := hsend
    refine ⟨⟨e, ?_⟩, ?_⟩ <;> simp only [handleWriteSession, hres, he]
  · intro e hres
    constructor <;> simp only [handleWriteSession, hres]

/-- Witness: C9 applied to a collaborative, connected session. -/
theorem C9_witness :
    (handleWriteSession [newSession "ffff0000-1111-2222-3333-444455556666" "w" 4 true
        (some 3) 0] "ffff0000-1111-2222-3333-444455556666" "echo hi").2.1
      = WSReply.ack true
          (newSession "ffff0000-1111-2222-3333-444455556666" "w" 4 true (some 3) 0).shortID
          ("echo hi" : String).utf8ByteSize :=
  ((C9_write_session_contract
      [newSession "ffff0000-1111-2222-3333-444455556666" "w" 4 true (some 3) 0]
      "ffff0000-1111-2222-3333-444455556666" "echo hi").2.1
    (newSession "ffff0000-1111-2222-3333-444455556666" "w" 4 true (some 3) 0)
    rfl rfl rfl 3 rfl).1

end Streamsh
